import Mathlib

/-!
# Verification of the peachfuzz host monitor

Shallow embedding, in Lean 4, of the peachfuzz repository
(`blender.py`, `portchecker.py`, `scan.py`) together with proofs about
the embedded definitions.

Conventions used throughout:
 - Python `int` team identifiers become `Nat` (teams come from a
   `range(start, end + 1)`, hence are non-negative).
 - Python strings become Lean `String` (or `List Char` where the source
   performs character-by-character index arithmetic).
 - The network and the operating system are modelled as explicit oracles
   (functions passed in as arguments), so every definition is executable.
 - Code that can raise is embedded with `Except`; an exception that the
   source catches is folded into the translated control flow exactly where
   the `try`/`except` sits in the source.
-/

namespace Peachfuzz

/-! ## Down-host registry (blender.py, lines 35-36 and 143-156)

`self.down_hosts` is a set of `(team, formatted_host)` tuples guarded by
`self.down_hosts_lock`.  Every access in the source (the worker update at
lines 143-156, the reporter at lines 182-189, the supervisor poll at lines
255-259 and the final report at lines 278-282) holds the lock for the whole
block, so each block is modelled as one atomic operation on the set. -/

/-- A registry entry: the `(team, formatted_host)` tuple of blender.py. -/
abbrev Entry := ℕ × String

/-- The operator-visible events printed by the worker update block
(blender.py lines 149 and 156). -/
inductive Event where
  | possibleReset (team : ℕ) (host : String)
  | recovered (team : ℕ) (host : String)
deriving DecidableEq

/-- The registry update performed by `check_host_continuous` under
`self.down_hosts_lock` (blender.py lines 143-156): given the probe outcome
`openPort` for `(team, host)`, return the new set together with the events
printed.  `openPort = false` means the host is down. -/
def report (down : Finset Entry) (team : ℕ) (host : String) (openPort : Bool) :
    Finset Entry × List Event :=
  if openPort = false then
    if (team, host) ∉ down then
      (insert (team, host) down, [Event.possibleReset team host])
    else
      (down, [])
  else
    if (team, host) ∈ down then
      (down.erase (team, host), [Event.recovered team host])
    else
      (down, [])

/-- One `report` call: the team, the formatted host, and whether the probe
found an open port (`up = true` means reachable). -/
structure Call where
  team : ℕ
  host : String
  up : Bool
deriving DecidableEq

/-- Run a sequence of `report` calls against a registry, collecting the
emitted events in order. -/
def runRegistry : Finset Entry → List Call → Finset Entry × List Event
  | d, [] => (d, [])
  | d, c :: rest =>
    let p := report d c.team c.host c.up
    let q := runRegistry p.1 rest
    (q.1, p.2 ++ q.2)

/-- The reachability value carried by the most recent call for `(t, h)` in
`calls`, if any. -/
def lastCallFor (calls : List Call) (t : ℕ) (h : String) : Option Bool :=
  (calls.reverse.find? (fun c => c.team == t && c.host == h)).map Call.up

lemma mem_report (down : Finset Entry) (team : ℕ) (host : String) (openPort : Bool)
    (e : Entry) :
    e ∈ (report down team host openPort).1 ↔
      (if e = (team, host) then openPort = false else e ∈ down) := by
  unfold report
  by_cases hup : openPort = false <;> by_cases hmem : (team, host) ∈ down <;>
    by_cases he : e = (team, host) <;>
    simp [hup, hmem, he, Finset.mem_insert, Finset.mem_erase]

lemma runRegistry_fst_cons (d : Finset Entry) (c : Call) (rest : List Call) :
    (runRegistry d (c :: rest)).1 = (runRegistry (report d c.team c.host c.up).1 rest).1 := by
  simp [runRegistry]

lemma lastCallFor_cons (c : Call) (rest : List Call) (t : ℕ) (h : String) :
    lastCallFor (c :: rest) t h =
      (lastCallFor rest t h).or
        (if c.team = t ∧ c.host = h then some c.up else none) := by
  unfold lastCallFor
  rw [List.reverse_cons, List.find?_append]
  by_cases hc : c.team = t ∧ c.host = h
  · have hc' : (c.team == t && c.host == h) = true := by
      simp [beq_iff_eq, hc.1, hc.2]
    cases hfind : List.find? (fun c => c.team == t && c.host == h) rest.reverse <;>
      simp [hfind, Option.or, List.find?, hc', hc]
  · have hc' : ¬(c.team == t && c.host == h) = true := by
      simp only [Bool.and_eq_true, beq_iff_eq]
      exact hc
    cases hfind : List.find? (fun c => c.team == t && c.host == h) rest.reverse <;>
      simp [hfind, Option.or, List.find?, hc', hc]

lemma mem_runRegistry (calls : List Call) (d : Finset Entry) (t : ℕ) (h : String) :
    (t, h) ∈ (runRegistry d calls).1 ↔
      (match lastCallFor calls t h with
        | some b => b = false
        | none => (t, h) ∈ d) := by
  induction calls generalizing d with
  | nil => simp [runRegistry, lastCallFor]
  | cons c rest ih =>
    rw [runRegistry_fst_cons, ih, lastCallFor_cons]
    by_cases hc : c.team = t ∧ c.host = h
    · cases hrest : lastCallFor rest t h with
      | some b => simp [hrest, Option.or]
      | none =>
        obtain ⟨h1, h2⟩ := hc
        subst h1; subst h2
        simp [hrest, Option.or, mem_report]
    · cases hrest : lastCallFor rest t h with
      | some b => simp [hrest, Option.or]
      | none =>
        have hne : (t, h) ≠ (c.team, c.host) := by
          intro heq
          rw [Prod.mk.injEq] at heq
          exact hc ⟨heq.1.symm, heq.2.symm⟩
        simp [hrest, Option.or, hc, mem_report, hne]

/-- **C1.** After any sequence of `report` calls on an initially empty
registry, `(t, h)` is a member exactly when the most recent call for that
pair reported the host unreachable; and a single `report` call behaves as
specified in each of the four cases: unreachable and absent inserts the pair
and emits exactly one POSSIBLE RESET event, unreachable and present emits
nothing, reachable and present removes the pair and emits exactly one
RECOVERED event, reachable and absent is a no-op. -/
theorem registry_report_semantics (calls : List Call) (t : ℕ) (h : String)
    (d : Finset Entry) :
    ((t, h) ∈ (runRegistry ∅ calls).1 ↔ lastCallFor calls t h = some false)
    ∧ ((t, h) ∉ d →
        report d t h false = (insert (t, h) d, [Event.possibleReset t h]))
    ∧ ((t, h) ∈ d → report d t h false = (d, []))
    ∧ ((t, h) ∈ d →
        report d t h true = (d.erase (t, h), [Event.recovered t h]))
    ∧ ((t, h) ∉ d → report d t h true = (d, [])) := by
  refine ⟨?_, ?_, ?_, ?_, ?_⟩
  · rw [mem_runRegistry]
    cases hlast : lastCallFor calls t h with
    | some b => cases b <;> simp [hlast]
    | none => simp [hlast]
  · intro hmem; simp [report, hmem]
  · intro hmem; simp [report, hmem]
  · intro hmem; simp [report, hmem]
  · intro hmem; simp [report, hmem]

/-- Witness for `registry_report_semantics` at a concrete input. -/
theorem registry_report_semantics_witness :
    ((2, "h") ∈ (runRegistry ∅ [Call.mk 2 "h" false]).1)
    ∧ report (∅ : Finset Entry) 2 "h" false
        = (insert (2, "h") ∅, [Event.possibleReset 2 "h"]) := by
  have hmain := registry_report_semantics [Call.mk 2 "h" false] 2 "h" (∅ : Finset Entry)
  exact ⟨hmain.1.mpr (by decide), hmain.2.1 (by decide)⟩

/-- **C10.** A `report` call for `(team, host)` leaves the membership of
every other pair unchanged. -/
theorem report_frame (d : Finset Entry) (team : ℕ) (host : String) (up : Bool)
    (e : Entry) (hne : e ≠ (team, host)) :
    e ∈ (report d team host up).1 ↔ e ∈ d := by
  rw [mem_report]
  simp [hne]

/-- Witness for `report_frame` at a concrete input. -/
theorem report_frame_witness :
    (3, "x") ∈ (report (insert (3, "x") ∅ : Finset Entry) 2 "h" false).1 := by
  exact (report_frame (insert (3, "x") ∅) 2 "h" false (3, "x") (by decide)).mpr
    (by decide)

/-! ## Ordered status snapshots (blender.py lines 182-189, 255-259, 278-282)

All three emission sites — the periodic reporter digest, the supervisor's
interim status block and the final status at shutdown — print
`for team, host in sorted(self.down_hosts)`, each inside a
`with self.down_hosts_lock:` block.  Python sorts `(int, str)` tuples
lexicographically, which is `entryLe` below.  Because every mutation
(lines 143-156) and every read holds the same lock, a snapshot is one
atomic operation interleaved between complete `report` calls; that is the
model used here (a snapshot is taken of `(runRegistry ∅ calls).1` for an
arbitrary prefix `calls` of completed report calls). -/

/-- Lexicographic order on `(team, host)`: Python tuple comparison. -/
def entryLe (a b : Entry) : Prop := a.1 < b.1 ∨ (a.1 = b.1 ∧ a.2 ≤ b.2)

instance : DecidableRel entryLe := fun a b => by
  unfold entryLe; infer_instance

instance : IsTrans Entry entryLe := ⟨by
  rintro a b c (h1 | ⟨h1, h1'⟩) (h2 | ⟨h2, h2'⟩)
  · exact Or.inl (h1.trans h2)
  · exact Or.inl (h2 ▸ h1)
  · exact Or.inl (h1 ▸ h2)
  · exact Or.inr ⟨h1.trans h2, h1'.trans h2'⟩⟩

instance : IsAntisymm Entry entryLe := ⟨by
  rintro a b (h1 | ⟨e1, l1⟩) (h2 | ⟨e2, l2⟩)
  · exact absurd (h1.trans h2) (lt_irrefl _)
  · exact absurd (e2 ▸ h1) (lt_irrefl _)
  · exact absurd (e1 ▸ h2) (lt_irrefl _)
  · exact Prod.ext e1 (le_antisymm l1 l2)⟩

instance : IsTotal Entry entryLe := ⟨by
  intro a b
  rcases lt_trichotomy a.1 b.1 with hlt | heq | hgt
  · exact Or.inl (Or.inl hlt)
  · rcases le_total a.2 b.2 with hle | hle
    · exact Or.inl (Or.inr ⟨heq, hle⟩)
    · exact Or.inr (Or.inr ⟨heq.symm, hle⟩)
  · exact Or.inr (Or.inl hgt)⟩

/-- The ordered listing `sorted(self.down_hosts)` shared by the reporter
digest (line 185), the supervisor interim block (line 258) and the final
status report (line 281). -/
def sortedDownHosts (down : Finset Entry) : List Entry :=
  down.sort entryLe

/-- **C7.** Every emitted snapshot — taken of the registry produced by any
complete sequence of `report` calls, which is the only kind of state a
lock-guarded reader can observe — lists the down entries in ascending
`(team, host)` order, and its elements are exactly the members of the
registry at that point (no half-updated state). -/
theorem snapshot_sorted_and_consistent (calls : List Call) :
    (sortedDownHosts (runRegistry ∅ calls).1).Sorted entryLe
    ∧ (∀ e : Entry,
        e ∈ sortedDownHosts (runRegistry ∅ calls).1 ↔ e ∈ (runRegistry ∅ calls).1) :=
  ⟨Finset.sort_sorted _ _, fun _ => Finset.mem_sort _⟩

/-! ## Reachability probe (portchecker.py, lines 9-23)

`check_ports(host, ports, timeout=3)` attempts a TCP connection to each
port in turn.  `sock.connect_ex` returns `0` on success and a non-zero
error code on ordinary failure or timeout; any exception raised by the
attempt is swallowed by the bare `except: pass`, except `KeyboardInterrupt`
which is re-raised.  The network is modelled by an oracle
`conn : ℕ → ConnResult` giving the outcome of the connection attempt to
each port of the fixed host (the host string and the timeout are folded
into the oracle). -/

/-- Outcome of one `connect_ex` attempt. -/
inductive ConnResult where
  /-- `connect_ex` returned 0: the port accepted the connection. -/
  | success
  /-- `connect_ex` returned a non-zero error code (refused or timed out). -/
  | failed
  /-- the attempt raised an ordinary exception (caught by `except: pass`). -/
  | raised
  /-- the attempt raised `KeyboardInterrupt` (re-raised by line 20). -/
  | interrupt
deriving DecidableEq

/-- The loop of `check_ports`, additionally recording the ports on which a
connection was attempted.  Returns `(ports tried, result)`; the result is
`Except.error` exactly when a `KeyboardInterrupt` escapes. -/
def check_ports_run (conn : ℕ → ConnResult) : List ℕ → List ℕ × Except String Bool
  | [] => ([], Except.ok false)
  | p :: rest =>
    match conn p with
    | ConnResult.success => ([p], Except.ok true)
    | ConnResult.interrupt => ([p], Except.error "KeyboardInterrupt")
    | _ =>
      let r := check_ports_run conn rest
      (p :: r.1, r.2)

/-- `check_ports` itself: just the result of the loop. -/
def check_ports (conn : ℕ → ConnResult) (ports : List ℕ) : Except String Bool :=
  (check_ports_run conn ports).2

/-- **C4.** In the absence of a `KeyboardInterrupt`, `check_ports` never
raises; it returns `true` exactly when some port accepts the connection,
`false` when every port fails or times out; and the ports actually tried
are the given ports, in the given order, up to and including the first
success and no further (short-circuit). -/
theorem check_ports_correct (conn : ℕ → ConnResult) (ports : List ℕ)
    (hni : ∀ p ∈ ports, conn p ≠ ConnResult.interrupt) :
    (∃ b, check_ports conn ports = Except.ok b)
    ∧ (check_ports conn ports = Except.ok true ↔
        ∃ p ∈ ports, conn p = ConnResult.success)
    ∧ (check_ports conn ports = Except.ok false ↔
        ∀ p ∈ ports, conn p ≠ ConnResult.success)
    ∧ (check_ports_run conn ports).1 =
        ports.take (ports.findIdx (fun p => conn p == ConnResult.success) + 1) := by
  induction ports with
  | nil => simp [check_ports, check_ports_run]
  | cons p rest ih =>
    have hp : conn p ≠ ConnResult.interrupt := hni p (List.mem_cons_self p rest)
    have hrest := ih (fun q hq => hni q (List.mem_cons_of_mem p hq))
    obtain ⟨⟨b, hb⟩, htrue, hfalse, htried⟩ := hrest
    cases hc : conn p with
    | interrupt => exact absurd hc hp
    | success =>
      have hrun : check_ports_run conn (p :: rest) = ([p], Except.ok true) := by
        simp [check_ports_run, hc]
      refine ⟨⟨true, by simp [check_ports, hrun]⟩, ?_, ?_, ?_⟩
      · constructor
        · intro _; exact ⟨p, List.mem_cons_self p rest, hc⟩
        · intro _; simp [check_ports, hrun]
      · constructor
        · intro h1; exact absurd h1 (by simp [check_ports, hrun])
        · intro h1; exact absurd hc (h1 p (List.mem_cons_self p rest))
      · simp [hrun, List.findIdx_cons, hc,
          show (ConnResult.success == ConnResult.success) = true from by decide]
    | failed =>
      refine ⟨⟨b, ?_⟩, ?_, ?_, ?_⟩
      · simpa [check_ports, check_ports_run, hc] using hb
      · simpa [check_ports, check_ports_run, hc] using htrue
      · constructor
        · intro h1 q hq
          rcases List.mem_cons.mp hq with rfl | hq'
          · simp [hc]
          · exact (hfalse.mp (by simpa [check_ports, check_ports_run, hc] using h1)) q hq'
        · intro h1
          have := hfalse.mpr (fun q hq => h1 q (List.mem_cons_of_mem p hq))
          simpa [check_ports, check_ports_run, hc] using this
      · simp [check_ports_run, hc, List.findIdx_cons, htried,
          show (ConnResult.failed == ConnResult.success) = false from by decide]
    | raised =>
      refine ⟨⟨b, ?_⟩, ?_, ?_, ?_⟩
      · simpa [check_ports, check_ports_run, hc] using hb
      · simpa [check_ports, check_ports_run, hc] using htrue
      · constructor
        · intro h1 q hq
          rcases List.mem_cons.mp hq with rfl | hq'
          · simp [hc]
          · exact (hfalse.mp (by simpa [check_ports, check_ports_run, hc] using h1)) q hq'
        · intro h1
          have := hfalse.mpr (fun q hq => h1 q (List.mem_cons_of_mem p hq))
          simpa [check_ports, check_ports_run, hc] using this
      · simp [check_ports_run, hc, List.findIdx_cons, htried,
          show (ConnResult.raised == ConnResult.success) = false from by decide]

/-- Witness for `check_ports_correct` at a concrete input: on the oracle
where only port 22 accepts, `check_ports` over `[80, 22, 443]` returns
`Except.ok true` and tries exactly `[80, 22]`. -/
theorem check_ports_correct_witness :
    check_ports (fun p => if p = 22 then ConnResult.success else ConnResult.failed)
        [80, 22, 443] = Except.ok true
    ∧ (check_ports_run (fun p => if p = 22 then ConnResult.success else ConnResult.failed)
        [80, 22, 443]).1 = [80, 22] := by
  have h := check_ports_correct
    (fun p => if p = 22 then ConnResult.success else ConnResult.failed)
    [80, 22, 443] (by decide)
  refine ⟨h.2.1.mpr ⟨22, by decide, by decide⟩, ?_⟩
  rw [h.2.2.2]
  decide

/-! ## Discovery scan wrapper (scan.py, lines 12-95)

The operating system is modelled by `ScanEnv`: the platform name, whether
the bundled RustScan binary exists at `./scanning/rustscan-<suffix>`, and
an oracle `run` giving the outcome of `subprocess.run` for each command
line.  In the source, `get_rustscan_binary()` is called *outside* the
`try` blocks of both `scan_subnet` (line 33) and `scan_hosts` (line 65),
so its exceptions propagate to the caller; the `try` blocks only wrap the
subprocess invocation and result parsing. -/

/-- `platform.system()` values distinguished by `get_rustscan_binary`. -/
inductive SysName where
  | windows
  | linux
  | darwin
  /-- any platform outside the `suffixes` dict. -/
  | other
deriving DecidableEq

/-- The exceptions `get_rustscan_binary` can raise (scan.py lines 22, 28). -/
inductive ScanErr where
  | notImplemented
  | fileNotFound
deriving DecidableEq

/-- Outcome of one `subprocess.run(cmd, capture_output=True, text=True,
timeout=300)` call. -/
inductive SubprocOutcome where
  /-- the process completed with this return code and these stdout lines. -/
  | completed (returncode : ℤ) (stdout : List String)
  /-- `subprocess.TimeoutExpired` after the 300-unit timeout. -/
  | timedOut
  /-- any other exception. -/
  | raised

/-- The OS as seen by scan.py. -/
structure ScanEnv where
  sysName : SysName
  binaryExists : Bool
  run : List String → SubprocOutcome

/-- The per-platform binary suffix (scan.py lines 14-18). -/
def binarySuffix : SysName → Option String
  | SysName.windows => some "windows.exe"
  | SysName.linux => some "linux"
  | SysName.darwin => some "macos"
  | SysName.other => none

/-- `get_rustscan_binary` (scan.py lines 12-28): raises
`NotImplementedError` on an unknown platform and `FileNotFoundError` when
the binary is absent. -/
def get_rustscan_binary (env : ScanEnv) : Except ScanErr String :=
  match binarySuffix env.sysName with
  | none => Except.error ScanErr.notImplemented
  | some suf =>
    if env.binaryExists then
      Except.ok ("./scanning/rustscan-" ++ suf)
    else
      Except.error ScanErr.fileNotFound

/-- The command line built by `scan_subnet` (scan.py line 36). -/
def buildSubnetCmd (bin subnet : String) (ports : List ℕ) : List String :=
  [bin, "-a", subnet, "-g", "-p", String.intercalate "," (ports.map toString)]

/-- Parsing of greppable RustScan output in `scan_subnet`
(scan.py lines 45-52): keep, for each line containing `->`, the stripped
part before the first `->`. -/
def parseGreppableHosts (lines : List String) : List String :=
  lines.filterMap fun line =>
    match (line.trim).splitOn "->" with
    | p :: _ :: _ => some p.trim
    | _ => none

/-- `scan_subnet` (scan.py lines 30-61): the binary is resolved before the
`try` block, so its exceptions propagate; everything inside the `try`
returns a list. -/
def scan_subnet (env : ScanEnv) (subnet : String) (ports : List ℕ) :
    Except ScanErr (List String) :=
  match get_rustscan_binary env with
  | Except.error e => Except.error e
  | Except.ok bin =>
    match env.run (buildSubnetCmd bin subnet ports) with
    | SubprocOutcome.completed rc out =>
      if rc = 0 then Except.ok (parseGreppableHosts out) else Except.ok []
    | SubprocOutcome.timedOut => Except.ok []
    | SubprocOutcome.raised => Except.ok []

/-- The command line built per host by `scan_hosts` (scan.py line 68).
Note the source joins the ports with no separator and no `-p` flag. -/
def buildHostCmd (bin host : String) (ports : List ℕ) : List String :=
  [bin, "-a", host, "-g",
    if ports.isEmpty then "--top" else String.join (ports.map toString)]

/-- Overwrite-or-append update of the results dict (scan.py line 88). -/
def setResult (results : List (String × List ℤ)) (h : String) (v : List ℤ) :
    List (String × List ℤ) :=
  if results.any (fun r => r.1 == h) then
    results.map (fun r => if r.1 == h then (h, v) else r)
  else
    results ++ [(h, v)]

/-- Parsing of one output line in `scan_hosts` (scan.py lines 75-90):
split on `->`, require exactly two parts, require the port section to be
bracketed, parse the comma-separated ports (a `ValueError` in any port
skips the line), store them sorted. -/
def parseHostLine (results : List (String × List ℤ)) (line : String) :
    List (String × List ℤ) :=
  match (line.trim).splitOn "->" with
  | [hostPart, portPart] =>
    let host := hostPart.trim
    let sec := portPart.trim
    if sec.startsWith "[" && sec.endsWith "]" then
      let inner := (sec.drop 1).dropRight 1
      if inner.isEmpty then results
      else
        match (inner.splitOn ",").mapM (fun p => p.trim.toInt?) with
        | some portsFound =>
          setResult results host (portsFound.mergeSort (fun a b => a ≤ b))
        | none => results
    else results
  | _ => results

/-- `scan_hosts` (scan.py lines 64-95): one subprocess call per host; a
timeout or exception for one host skips that host and keeps going. -/
def scan_hosts (env : ScanEnv) (hosts : List String) (ports : List ℕ) :
    Except ScanErr (List (String × List ℤ)) :=
  match get_rustscan_binary env with
  | Except.error e => Except.error e
  | Except.ok bin =>
    Except.ok (hosts.foldl
      (fun results host =>
        match env.run (buildHostCmd bin host ports) with
        | SubprocOutcome.completed rc out =>
          if rc = 0 then out.foldl parseHostLine results else results
        | SubprocOutcome.timedOut => results
        | SubprocOutcome.raised => results)
      [])

/-- The claim as stated is false: with the binary absent, both discovery
calls raise `FileNotFoundError` to the caller instead of returning an
empty result (scan.py lines 33 and 65 sit outside the `try` blocks). -/
theorem scan_missing_binary_raises :
    scan_subnet ⟨SysName.linux, false, fun _ => SubprocOutcome.timedOut⟩
        "10.188.1.0/24" [80] = Except.error ScanErr.fileNotFound
    ∧ scan_hosts ⟨SysName.linux, false, fun _ => SubprocOutcome.timedOut⟩
        ["10.188.1.5"] [80] = Except.error ScanErr.fileNotFound := by
  constructor <;> rfl

/-- **C5 (amended).** Once the RustScan binary resolves, neither discovery
call ever raises: `scan_subnet` returns `[]` on a timeout, a subprocess
exception or a non-zero return code, and `scan_hosts` returns `{}` when
every per-host invocation times out, raises or exits with a non-zero
return code; but when the platform is unsupported or the binary is absent,
both calls raise (`NotImplementedError` / `FileNotFoundError`) instead of
returning empty. -/
theorem scan_error_containment (env : ScanEnv) (subnet : String)
    (hosts : List String) (ports : List ℕ) :
    (env.sysName ≠ SysName.other → env.binaryExists = true →
      (∃ l, scan_subnet env subnet ports = Except.ok l)
      ∧ (∃ r, scan_hosts env hosts ports = Except.ok r)
      ∧ (∀ bin, get_rustscan_binary env = Except.ok bin →
          (env.run (buildSubnetCmd bin subnet ports) = SubprocOutcome.timedOut
            ∨ env.run (buildSubnetCmd bin subnet ports) = SubprocOutcome.raised
            ∨ (∃ rc out, rc ≠ 0
                ∧ env.run (buildSubnetCmd bin subnet ports)
                    = SubprocOutcome.completed rc out)) →
          scan_subnet env subnet ports = Except.ok [])
      ∧ (∀ bin, get_rustscan_binary env = Except.ok bin →
          (∀ host ∈ hosts,
            env.run (buildHostCmd bin host ports) = SubprocOutcome.timedOut
            ∨ env.run (buildHostCmd bin host ports) = SubprocOutcome.raised
            ∨ (∃ rc out, rc ≠ 0
                ∧ env.run (buildHostCmd bin host ports)
                    = SubprocOutcome.completed rc out)) →
          scan_hosts env hosts ports = Except.ok []))
    ∧ (env.sysName ≠ SysName.other → env.binaryExists = false →
        scan_subnet env subnet ports = Except.error ScanErr.fileNotFound
        ∧ scan_hosts env hosts ports = Except.error ScanErr.fileNotFound)
    ∧ (env.sysName = SysName.other →
        scan_subnet env subnet ports = Except.error ScanErr.notImplemented
        ∧ scan_hosts env hosts ports = Except.error ScanErr.notImplemented) := by
  have hbin : ∀ suf, binarySuffix env.sysName = some suf → env.binaryExists = true →
      get_rustscan_binary env = Except.ok ("./scanning/rustscan-" ++ suf) := by
    intro suf hsuf hex
    simp [get_rustscan_binary, hsuf, hex]
  refine ⟨?_, ?_, ?_⟩
  · intro hsys hex
    obtain ⟨suf, hsuf⟩ : ∃ suf, binarySuffix env.sysName = some suf := by
      cases h : env.sysName with
      | windows => exact ⟨"windows.exe", rfl⟩
      | linux => exact ⟨"linux", rfl⟩
      | darwin => exact ⟨"macos", rfl⟩
      | other => exact absurd h hsys
    have hres := hbin suf hsuf hex
    refine ⟨?_, ?_, ?_, ?_⟩
    · cases hout : env.run (buildSubnetCmd ("./scanning/rustscan-" ++ suf) subnet ports) with
      | completed rc out =>
        by_cases hrc : rc = 0
        · exact ⟨parseGreppableHosts out, by simp [scan_subnet, hres, hout, hrc]⟩
        · exact ⟨[], by simp [scan_subnet, hres, hout, hrc]⟩
      | timedOut => exact ⟨[], by simp [scan_subnet, hres, hout]⟩
      | raised => exact ⟨[], by simp [scan_subnet, hres, hout]⟩
    · exact ⟨hosts.foldl
        (fun results host =>
          match env.run (buildHostCmd ("./scanning/rustscan-" ++ suf) host ports) with
          | SubprocOutcome.completed rc out =>
            if rc = 0 then out.foldl parseHostLine results else results
          | SubprocOutcome.timedOut => results
          | SubprocOutcome.raised => results)
        [], by simp [scan_hosts, hres]⟩
    · intro bin hbin' hfail
      have hb : bin = "./scanning/rustscan-" ++ suf := by
        rw [hres] at hbin'
        exact (Except.ok.injEq _ _ ▸ hbin').symm ▸ rfl
      subst hb
      rcases hfail with hout | hout | ⟨rc, out, hrc, hout⟩
      · simp [scan_subnet, hres, hout]
      · simp [scan_subnet, hres, hout]
      · simp [scan_subnet, hres, hout, hrc]
    · intro bin hbin' hall
      have hb : bin = "./scanning/rustscan-" ++ suf := by
        rw [hres] at hbin'
        exact (Except.ok.injEq _ _ ▸ hbin').symm ▸ rfl
      subst hb
      simp only [scan_hosts, hres]
      have hfold : ∀ (hs : List String),
          (∀ host ∈ hs,
            env.run (buildHostCmd ("./scanning/rustscan-" ++ suf) host ports)
                = SubprocOutcome.timedOut
            ∨ env.run (buildHostCmd ("./scanning/rustscan-" ++ suf) host ports)
                = SubprocOutcome.raised
            ∨ (∃ rc out, rc ≠ 0
                ∧ env.run (buildHostCmd ("./scanning/rustscan-" ++ suf) host ports)
                    = SubprocOutcome.completed rc out)) →
          ∀ acc : List (String × List ℤ), (hs.foldl
            (fun results host =>
              match env.run (buildHostCmd ("./scanning/rustscan-" ++ suf) host ports) with
              | SubprocOutcome.completed rc out =>
                if rc = 0 then out.foldl parseHostLine results else results
              | SubprocOutcome.timedOut => results
              | SubprocOutcome.raised => results)
            acc) = acc := by
        intro hs
        induction hs with
        | nil => intro _ acc; rfl
        | cons hh hrest ih =>
          intro hall' acc
          have hstep : (match env.run (buildHostCmd ("./scanning/rustscan-" ++ suf) hh ports) with
              | SubprocOutcome.completed rc out =>
                if rc = 0 then out.foldl parseHostLine acc else acc
              | SubprocOutcome.timedOut => acc
              | SubprocOutcome.raised => acc) = acc := by
            rcases hall' hh (List.mem_cons_self hh hrest) with hout | hout | ⟨rc, out, hrc, hout⟩
            · rw [hout]
            · rw [hout]
            · rw [hout]
              simp [hrc]
          rw [List.foldl_cons, hstep]
          exact ih (fun h hm => hall' h (List.mem_cons_of_mem hh hm)) acc
      simpa using hfold hosts hall []
  · intro hsys hex
    obtain ⟨suf, hsuf⟩ : ∃ suf, binarySuffix env.sysName = some suf := by
      cases h : env.sysName with
      | windows => exact ⟨"windows.exe", rfl⟩
      | linux => exact ⟨"linux", rfl⟩
      | darwin => exact ⟨"macos", rfl⟩
      | other => exact absurd h hsys
    constructor <;>
      simp [scan_subnet, scan_hosts, get_rustscan_binary, hsuf, hex]
  · intro hsys
    constructor <;>
      simp [scan_subnet, scan_hosts, get_rustscan_binary, hsys, binarySuffix]

/-- Witness for `scan_error_containment` at a concrete environment where
every subprocess invocation times out. -/
theorem scan_error_containment_witness :
    scan_hosts ⟨SysName.linux, true, fun _ => SubprocOutcome.timedOut⟩
      ["10.188.1.5"] [80] = Except.ok [] := by
  exact ((scan_error_containment
      ⟨SysName.linux, true, fun _ => SubprocOutcome.timedOut⟩
      "10.188.1.0/24" ["10.188.1.5"] [80]).1
    (by intro h; cases h) rfl).2.2.2 ("./scanning/rustscan-" ++ "linux") rfl
    (fun _ _ => Or.inl rfl)

/-! ## Worker pool sizing (blender.py lines 30, 227-238)

`Blender.__init__` reads `max_workers` from the `execution` section of the
configuration, defaulting to 4 (line 30); it is unrelated to the loaded
inventory.  `reset_check` creates
`ThreadPoolExecutor(max_workers=self.max_workers + 1)` (line 227) and then
submits one `check_host_continuous` task per entry of `self.ports.items()`
plus one reporter task (lines 232-236). -/

/-- The `execution.max_workers` configuration value (default 4). -/
structure ExecConfig where
  maxWorkers : ℕ

/-- The pool capacity passed to `ThreadPoolExecutor` (line 227). -/
def executorCapacity (cfg : ExecConfig) : ℕ :=
  cfg.maxWorkers + 1

/-- The number of tasks submitted in `reset_check` (lines 232-236): one
monitor per `(host, ports)` inventory pair plus the reporter. -/
def submittedUnits (hostPortsPairs : List (String × List ℕ)) : ℕ :=
  hostPortsPairs.length + 1

/-- The claim as stated is false: with the default configuration
(`max_workers = 4`) and an inventory of six host templates, the pool
capacity is 5, not the 7 (= inventory + 1) units submitted, so two
submitted workers wait unstarted. -/
theorem pool_capacity_not_inventory_sized :
    executorCapacity ⟨4⟩ ≠ submittedUnits
        [("10.{team}.1.1", [22]), ("10.{team}.1.2", [22]), ("10.{team}.1.3", [22]),
         ("10.{team}.1.4", [22]), ("10.{team}.1.5", [22]), ("10.{team}.1.6", [22])]
    ∧ executorCapacity ⟨4⟩ < submittedUnits
        [("10.{team}.1.1", [22]), ("10.{team}.1.2", [22]), ("10.{team}.1.3", [22]),
         ("10.{team}.1.4", [22]), ("10.{team}.1.5", [22]), ("10.{team}.1.6", [22])] := by
  constructor <;> decide

/-- **C6 (amended).** The pool capacity is the configured
`execution.max_workers` value plus one (for the reporter), independent of
the inventory; whenever the inventory is larger than `max_workers`, the
submitted units exceed the pool capacity, so some submitted worker waits
unstarted behind the others. -/
theorem pool_capacity_from_config (cfg : ExecConfig)
    (hostPortsPairs : List (String × List ℕ))
    (hbig : cfg.maxWorkers < hostPortsPairs.length) :
    executorCapacity cfg = cfg.maxWorkers + 1
    ∧ executorCapacity cfg < submittedUnits hostPortsPairs := by
  exact ⟨rfl, by simpa [executorCapacity, submittedUnits] using hbig⟩

/-- Witness for `pool_capacity_from_config` at a concrete input. -/
theorem pool_capacity_from_config_witness :
    executorCapacity ⟨1⟩ = 2
    ∧ executorCapacity ⟨1⟩ < submittedUnits [("a", [1]), ("b", [2])] := by
  exact pool_capacity_from_config ⟨1⟩ [("a", [1]), ("b", [2])] (by decide)

/-! ## Worker loop (blender.py, `check_host_continuous`, lines 129-170)

The worker is modelled as an executable function over an environment
`Env` consisting of the stop signal and the probe oracle, both indexed by
a logical clock that advances by one at every primitive step the worker
takes (a stop-signal observation or a probe).  The source structure:

    while not self.stop_event.is_set():          -- top stop check
        try:
            for team in self.teams:
                if self.stop_event.is_set():     -- per-team stop check
                    break
                formatted_host = host.format(...)
                open_port = check_ports(formatted_host, ports)   -- may raise
                ... registry update under the lock ...           -- `report`
            if not self.stop_event.wait(0.1):    -- short pause, stop check
                continue
            else:
                break
        except Exception as e:
            print(f"Error checking host {host}: {e}")            -- logError
            if not self.stop_event.wait(1):      -- 1-unit pause, stop check
                continue                          -- restarts the FOR loop
            else:
                break

`Event.wait(d)` returns `True` exactly when the stop event is set, which
is modelled as observing `env.stop` at the current tick.  The `while` loop
is given explicit fuel; running out of fuel models an unbounded run that
is still going (the fourth component `exited = false`). -/

/-- Outcome of one `check_ports` call as seen by the worker. -/
inductive ProbeOutcome where
  /-- the probe returned normally, `up = true` meaning some port was open. -/
  | ok (up : Bool)
  /-- the probe raised an exception into the worker's `except` block. -/
  | exn
deriving DecidableEq

/-- The worker's environment: the stop signal and the probe oracle, both
indexed by the worker's logical clock. -/
structure Env where
  stop : ℕ → Bool
  probe : ℕ → String → ProbeOutcome

/-- The observable actions of one worker, in program order. -/
inductive Action where
  /-- a stop-signal observation that returned `true`. -/
  | stopTrue
  /-- a stop-signal observation that returned `false`. -/
  | stopFalse
  /-- entry into the `for team in self.teams` cycle. -/
  | cycleStart
  /-- a `check_ports` call for this team and formatted host. -/
  | probeA (team : ℕ) (host : String)
  /-- the lock-guarded registry update for this probe result. -/
  | reportA (team : ℕ) (host : String) (up : Bool)
  /-- the `except` block's error print (line 165). -/
  | logError (team : ℕ)
  /-- the 0.1-unit inter-cycle pause (line 159), stop not set. -/
  | pauseShort
  /-- the 1-unit back-off pause after an error (line 167), stop not set. -/
  | pauseLong
  /-- the worker function returns. -/
  | exitLoop
deriving DecidableEq

/-- How one pass over the team list ended. -/
inductive TeamsResult where
  /-- the `for` loop ran to completion. -/
  | completed
  /-- a per-team stop check observed `true` and broke out. -/
  | stopped
  /-- the probe for this team raised. -/
  | raised (team : ℕ) (host : String)
deriving DecidableEq

/-- The `for team in self.teams` loop (lines 135-156): returns the trace
of actions, the registry, the clock after the loop, and how it ended. -/
def runTeams (env : Env) (fmt : ℕ → String) :
    List ℕ → Finset Entry → ℕ →
    List Action × Finset Entry × ℕ × TeamsResult
  | [], down, t => ([], down, t, TeamsResult.completed)
  | team :: rest, down, t =>
    if env.stop t then
      ([Action.stopTrue], down, t + 1, TeamsResult.stopped)
    else
      let host := fmt team
      match env.probe (t + 1) host with
      | ProbeOutcome.exn =>
        ([Action.stopFalse, Action.probeA team host, Action.logError team],
          down, t + 2, TeamsResult.raised team host)
      | ProbeOutcome.ok up =>
        let r := runTeams env fmt rest (report down team host up).1 (t + 2)
        (Action.stopFalse :: Action.probeA team host :: Action.reportA team host up :: r.1,
          r.2.1, r.2.2.1, r.2.2.2)

/-- The `while not self.stop_event.is_set()` loop (lines 133-170), with
fuel bounding the number of iterations.  Returns the trace, the registry,
the clock, and whether the worker function returned (as opposed to still
running when the fuel ran out). -/
def runWorker (env : Env) (fmt : ℕ → String) (teams : List ℕ) :
    ℕ → Finset Entry → ℕ → List Action × Finset Entry × ℕ × Bool
  | 0, down, t => ([], down, t, false)
  | fuel + 1, down, t =>
    if env.stop t then
      ([Action.stopTrue, Action.exitLoop], down, t + 1, true)
    else
      let r := runTeams env fmt teams down (t + 1)
      let head := Action.stopFalse :: Action.cycleStart :: r.1
      match r.2.2.2 with
      | TeamsResult.raised _ _ =>
        if env.stop r.2.2.1 then
          (head ++ [Action.stopTrue, Action.exitLoop], r.2.1, r.2.2.1 + 1, true)
        else
          let w := runWorker env fmt teams fuel r.2.1 (r.2.2.1 + 1)
          (head ++ Action.stopFalse :: Action.pauseLong :: w.1, w.2.1, w.2.2.1, w.2.2.2)
      | _ =>
        if env.stop r.2.2.1 then
          (head ++ [Action.stopTrue, Action.exitLoop], r.2.1, r.2.2.1 + 1, true)
        else
          let w := runWorker env fmt teams fuel r.2.1 (r.2.2.1 + 1)
          (head ++ Action.stopFalse :: Action.pauseShort :: w.1, w.2.1, w.2.2.1, w.2.2.2)

/-- Actions forbidden after the stop signal has been observed: probing,
reporting, or starting a new cycle. -/
def isWork : Action → Bool
  | Action.probeA _ _ => true
  | Action.reportA _ _ _ => true
  | Action.cycleStart => true
  | _ => false

/-- `env.stop` is monotone: once set it stays set (the source sets the
`threading.Event` exactly once per run and never clears it while the
workers are alive). -/
def StopMonotone (env : Env) : Prop :=
  ∀ i j, i ≤ j → env.stop i = true → env.stop j = true

/-- No split of the trace places work after a `stopTrue` observation. -/
def TailSafe (tr : List Action) : Prop :=
  ∀ xs ys, tr = xs ++ Action.stopTrue :: ys → ∀ a ∈ ys, isWork a = false

lemma tailSafe_nil : TailSafe [] := by
  intro xs ys hsplit
  cases xs <;> simp at hsplit

lemma tailSafe_cons (a : Action) (tr : List Action) (ha : a ≠ Action.stopTrue)
    (htr : TailSafe tr) : TailSafe (a :: tr) := by
  intro xs ys hsplit
  cases xs with
  | nil =>
    simp at hsplit
    exact absurd hsplit.1 ha
  | cons x xs' =>
    simp at hsplit
    exact htr xs' ys hsplit.2

lemma tailSafe_cons_stopTrue (tr : List Action)
    (hall : ∀ a ∈ tr, isWork a = false) (htr : TailSafe tr) :
    TailSafe (Action.stopTrue :: tr) := by
  intro xs ys hsplit
  cases xs with
  | nil =>
    simp at hsplit
    exact fun a ha => hall a (hsplit ▸ ha)
  | cons x xs' =>
    simp at hsplit
    exact htr xs' ys hsplit.2

lemma tailSafe_append (l1 l2 : List Action) (h1 : Action.stopTrue ∉ l1)
    (h2 : TailSafe l2) : TailSafe (l1 ++ l2) := by
  induction l1 with
  | nil => simpa using h2
  | cons a l1' ih =>
    have ha : a ≠ Action.stopTrue := fun heq => h1 (heq ▸ List.mem_cons_self a l1')
    have h1' : Action.stopTrue ∉ l1' := fun hmem => h1 (List.mem_cons_of_mem a hmem)
    simpa using tailSafe_cons a (l1' ++ l2) ha (ih h1')

/-- Structure of a `runTeams` trace.  Whatever the outcome:
if the loop completed or raised, no stop check observed `true`; if it
stopped, the trace ends with the single `stopTrue` observation and the
observation happened at the returned clock minus one. -/
lemma runTeams_trace (env : Env) (fmt : ℕ → String) (teams : List ℕ)
    (down : Finset Entry) (t : ℕ) :
    (((runTeams env fmt teams down t).2.2.2 = TeamsResult.completed
        ∨ (∃ tm h, (runTeams env fmt teams down t).2.2.2 = TeamsResult.raised tm h)) →
      Action.stopTrue ∉ (runTeams env fmt teams down t).1)
    ∧ ((runTeams env fmt teams down t).2.2.2 = TeamsResult.stopped →
        (∃ tr0, (runTeams env fmt teams down t).1 = tr0 ++ [Action.stopTrue]
          ∧ Action.stopTrue ∉ tr0)
        ∧ env.stop ((runTeams env fmt teams down t).2.2.1 - 1) = true
        ∧ 1 ≤ (runTeams env fmt teams down t).2.2.1) := by
  induction teams generalizing down t with
  | nil =>
    constructor
    · intro _; simp [runTeams]
    · intro hres; simp [runTeams] at hres
  | cons team rest ih =>
    by_cases hstop : env.stop t = true
    · constructor
      · intro hres
        rcases hres with hres | ⟨tm, h, hres⟩ <;>
          simp [runTeams, hstop] at hres
      · intro _
        refine ⟨⟨[], by simp [runTeams, hstop], by simp⟩, ?_, ?_⟩ <;>
          simp [runTeams, hstop]
    · have hstop' : env.stop t = false := by
        cases h : env.stop t
        · rfl
        · exact absurd h hstop
      cases hprobe : env.probe (t + 1) (fmt team) with
      | exn =>
        constructor
        · intro _
          simp [runTeams, hstop', hprobe]
        · intro hres
          simp [runTeams, hstop', hprobe] at hres
      | ok up =>
        have ihr := ih (report down team (fmt team) up).1 (t + 2)
        constructor
        · intro hres
          have hres' : (runTeams env fmt rest (report down team (fmt team) up).1 (t + 2)).2.2.2
                = TeamsResult.completed
              ∨ (∃ tm h, (runTeams env fmt rest (report down team (fmt team) up).1 (t + 2)).2.2.2
                = TeamsResult.raised tm h) := by
            simpa [runTeams, hstop', hprobe] using hres
          have hnot := ihr.1 hres'
          simp [runTeams, hstop', hprobe]
          exact hnot
        · intro hres
          have hres' : (runTeams env fmt rest (report down team (fmt team) up).1 (t + 2)).2.2.2
              = TeamsResult.stopped := by
            simpa [runTeams, hstop', hprobe] using hres
          obtain ⟨⟨tr0, htr0, hnot0⟩, hclock, hpos⟩ := ihr.2 hres'
          refine ⟨⟨Action.stopFalse :: Action.probeA team (fmt team)
              :: Action.reportA team (fmt team) up :: tr0, ?_, ?_⟩, ?_, ?_⟩
          · simp [runTeams, hstop', hprobe, htr0]
          · simp
            exact hnot0
          · simpa [runTeams, hstop', hprobe] using hclock
          · simp [runTeams, hstop', hprobe]
            omega

/-- Clocks never move backwards through a team cycle. -/
lemma runTeams_clock (env : Env) (fmt : ℕ → String) (teams : List ℕ)
    (down : Finset Entry) (t : ℕ) :
    t ≤ (runTeams env fmt teams down t).2.2.1 := by
  induction teams generalizing down t with
  | nil => simp [runTeams]
  | cons team rest ih =>
    by_cases hstop : env.stop t = true
    · simp [runTeams, hstop]
    · have hstop' : env.stop t = false := by
        cases h : env.stop t
        · rfl
        · exact absurd h hstop
      cases hprobe : env.probe (t + 1) (fmt team) with
      | exn => simp [runTeams, hstop', hprobe]
      | ok up =>
        have := ih (report down team (fmt team) up).1 (t + 2)
        simp only [runTeams, hstop', hprobe]
        simp
        omega

/-- **C8.** Under a monotone stop signal, once a worker observes the stop
signal `true` it performs no further probe, no further registry report and
starts no further cycle — at any point of the run — and the worker
function returns rather than beginning another cycle. -/
theorem worker_abandons_on_stop (env : Env) (fmt : ℕ → String) (teams : List ℕ)
    (fuel : ℕ) (down : Finset Entry) (t : ℕ) (hmono : StopMonotone env) :
    TailSafe (runWorker env fmt teams fuel down t).1
    ∧ (Action.stopTrue ∈ (runWorker env fmt teams fuel down t).1 →
        (runWorker env fmt teams fuel down t).2.2.2 = true) := by
  induction fuel generalizing down t with
  | zero =>
    constructor
    · simpa [runWorker] using tailSafe_nil
    · intro hmem; simp [runWorker] at hmem
  | succ fuel ih =>
    by_cases hstop : env.stop t = true
    · constructor
      · simp only [runWorker, hstop, if_true]
        exact tailSafe_cons_stopTrue [Action.exitLoop] (by simp [isWork])
          (tailSafe_cons Action.exitLoop [] (by simp) tailSafe_nil)
      · intro _; simp [runWorker, hstop]
    · have hstop' : env.stop t = false := by
        cases h : env.stop t
        · rfl
        · exact absurd h hstop
      have htrace := runTeams_trace env fmt teams down (t + 1)
      have hclock := runTeams_clock env fmt teams down (t + 1)
      set r := runTeams env fmt teams down (t + 1) with hr
      cases hres : r.2.2.2 with
      | stopped =>
        obtain ⟨⟨tr0, htr0, hnot0⟩, hobsv, hpos⟩ := htrace.2 hres
        have hstopafter : env.stop r.2.2.1 = true :=
          hmono (r.2.2.1 - 1) r.2.2.1 (by omega) hobsv
        constructor
        · simp only [runWorker, hstop', Bool.false_eq_true, if_false, ← hr, hres,
            hstopafter, if_true]
          rw [htr0]
          have : Action.stopFalse :: Action.cycleStart :: (tr0 ++ [Action.stopTrue])
              ++ [Action.stopTrue, Action.exitLoop]
              = (Action.stopFalse :: Action.cycleStart :: tr0)
                ++ (Action.stopTrue :: [Action.stopTrue, Action.exitLoop]) := by
            simp
          rw [this]
          refine tailSafe_append _ _ ?_ ?_
          · simp
            exact hnot0
          · refine tailSafe_cons_stopTrue _ (by simp [isWork]) ?_
            refine tailSafe_cons_stopTrue _ (by simp [isWork]) ?_
            exact tailSafe_cons Action.exitLoop [] (by simp) tailSafe_nil
        · intro _
          simp [runWorker, hstop', ← hr, hres, hstopafter]
      | completed =>
        have hnotrace : Action.stopTrue ∉ r.1 := htrace.1 (Or.inl hres)
        by_cases hafter : env.stop r.2.2.1 = true
        · constructor
          · simp only [runWorker, hstop', Bool.false_eq_true, if_false, ← hr, hres,
              hafter, if_true]
            have : Action.stopFalse :: Action.cycleStart :: r.1
                ++ [Action.stopTrue, Action.exitLoop]
                = (Action.stopFalse :: Action.cycleStart :: r.1)
                  ++ (Action.stopTrue :: [Action.exitLoop]) := by simp
            rw [this]
            refine tailSafe_append _ _ ?_ ?_
            · simp
              exact hnotrace
            · refine tailSafe_cons_stopTrue _ (by simp [isWork]) ?_
              exact tailSafe_cons Action.exitLoop [] (by simp) tailSafe_nil
          · intro _
            simp [runWorker, hstop', ← hr, hres, hafter]
        · have hafter' : env.stop r.2.2.1 = false := by
            cases h : env.stop r.2.2.1
            · rfl
            · exact absurd h hafter
          have ihw := ih r.2.1 (r.2.2.1 + 1)
          constructor
          · simp only [runWorker, hstop', Bool.false_eq_true, if_false, ← hr, hres,
              hafter', if_false]
            have : Action.stopFalse :: Action.cycleStart :: r.1
                ++ Action.stopFalse :: Action.pauseShort
                  :: (runWorker env fmt teams fuel r.2.1 (r.2.2.1 + 1)).1
                = (Action.stopFalse :: Action.cycleStart :: r.1
                    ++ [Action.stopFalse, Action.pauseShort])
                  ++ (runWorker env fmt teams fuel r.2.1 (r.2.2.1 + 1)).1 := by
              simp
            rw [this]
            refine tailSafe_append _ _ ?_ ihw.1
            simp
            exact hnotrace
          · intro hmem
            simp only [runWorker, hstop', Bool.false_eq_true, if_false, ← hr, hres,
              hafter', if_false] at hmem ⊢
            simp at hmem
            rcases hmem with h1 | h1
            · exact absurd h1 hnotrace
            · exact ihw.2 h1
      | raised tm hh =>
        have hnotrace : Action.stopTrue ∉ r.1 := htrace.1 (Or.inr ⟨tm, hh, hres⟩)
        by_cases hafter : env.stop r.2.2.1 = true
        · constructor
          · simp only [runWorker, hstop', Bool.false_eq_true, if_false, ← hr, hres,
              hafter, if_true]
            have : Action.stopFalse :: Action.cycleStart :: r.1
                ++ [Action.stopTrue, Action.exitLoop]
                = (Action.stopFalse :: Action.cycleStart :: r.1)
                  ++ (Action.stopTrue :: [Action.exitLoop]) := by simp
            rw [this]
            refine tailSafe_append _ _ ?_ ?_
            · simp
              exact hnotrace
            · refine tailSafe_cons_stopTrue _ (by simp [isWork]) ?_
              exact tailSafe_cons Action.exitLoop [] (by simp) tailSafe_nil
          · intro _
            simp [runWorker, hstop', ← hr, hres, hafter]
        · have hafter' : env.stop r.2.2.1 = false := by
            cases h : env.stop r.2.2.1
            · rfl
            · exact absurd h hafter
          have ihw := ih r.2.1 (r.2.2.1 + 1)
          constructor
          · simp only [runWorker, hstop', Bool.false_eq_true, if_false, ← hr, hres,
              hafter', if_false]
            have : Action.stopFalse :: Action.cycleStart :: r.1
                ++ Action.stopFalse :: Action.pauseLong
                  :: (runWorker env fmt teams fuel r.2.1 (r.2.2.1 + 1)).1
                = (Action.stopFalse :: Action.cycleStart :: r.1
                    ++ [Action.stopFalse, Action.pauseLong])
                  ++ (runWorker env fmt teams fuel r.2.1 (r.2.2.1 + 1)).1 := by
              simp
            rw [this]
            refine tailSafe_append _ _ ?_ ihw.1
            simp
            exact hnotrace
          · intro hmem
            simp only [runWorker, hstop', Bool.false_eq_true, if_false, ← hr, hres,
              hafter', if_false] at hmem ⊢
            simp at hmem
            rcases hmem with h1 | h1
            · exact absurd h1 hnotrace
            · exact ihw.2 h1

/-- Witness for `worker_abandons_on_stop`: with the stop signal already
set, the run is `[stopTrue, exitLoop]` and the worker exits; the split
after `stopTrue` contains no work action. -/
theorem worker_abandons_on_stop_witness :
    isWork Action.exitLoop = false
    ∧ (runWorker ⟨fun _ => true, fun _ _ => ProbeOutcome.ok true⟩
        (fun n => "10." ++ toString n ++ ".1.5") [1, 2, 3] 4 ∅ 0).2.2.2 = true := by
  have h := worker_abandons_on_stop ⟨fun _ => true, fun _ _ => ProbeOutcome.ok true⟩
    (fun n => "10." ++ toString n ++ ".1.5") [1, 2, 3] 4 ∅ 0
    (fun _ _ _ hs => hs)
  exact ⟨h.1 [] [Action.exitLoop] rfl Action.exitLoop (by simp),
    h.2 (by decide)⟩

lemma runTeams_raised_shape (env : Env) (fmt : ℕ → String) (teams : List ℕ)
    (down : Finset Entry) (t : ℕ) (team : ℕ) (host : String)
    (hraise : (runTeams env fmt teams down t).2.2.2 = TeamsResult.raised team host) :
    ∃ tr0, (runTeams env fmt teams down t).1
      = tr0 ++ [Action.stopFalse, Action.probeA team host, Action.logError team] := by
  induction teams generalizing down t with
  | nil => simp [runTeams] at hraise
  | cons tm rest ih =>
    by_cases hstop : env.stop t = true
    · simp [runTeams, hstop] at hraise
    · have hstop' : env.stop t = false := by
        cases h : env.stop t
        · rfl
        · exact absurd h hstop
      cases hprobe : env.probe (t + 1) (fmt tm) with
      | exn =>
        have heq : tm = team ∧ fmt tm = host := by
          simpa [runTeams, hstop', hprobe] using hraise
        obtain ⟨h1, h2⟩ := heq
        subst h1
        subst h2
        refine ⟨[], ?_⟩
        simp [runTeams, hstop', hprobe]
      | ok up =>
        have hraise' : (runTeams env fmt rest (report down tm (fmt tm) up).1 (t + 2)).2.2.2
            = TeamsResult.raised team host := by
          simpa [runTeams, hstop', hprobe] using hraise
        obtain ⟨tr0, htr0⟩ := ih (report down tm (fmt tm) up).1 (t + 2) hraise'
        exact ⟨Action.stopFalse :: Action.probeA tm (fmt tm)
            :: Action.reportA tm (fmt tm) up :: tr0,
          by simp [runTeams, hstop', hprobe, htr0]⟩

/-- While the stop signal is never set, the worker function never
returns — its loop only ends via the stop signal. -/
lemma runWorker_no_exit (env : Env) (fmt : ℕ → String) (teams : List ℕ)
    (fuel : ℕ) (down : Finset Entry) (t : ℕ)
    (hstop : ∀ i, env.stop i = false) :
    (runWorker env fmt teams fuel down t).2.2.2 = false := by
  induction fuel generalizing down t with
  | zero => simp [runWorker]
  | succ fuel ih =>
    cases hres : (runTeams env fmt teams down (t + 1)).2.2.2 with
    | completed => simp [runWorker, hstop, hres, ih]
    | stopped => simp [runWorker, hstop, hres, ih]
    | raised tm h => simp [runWorker, hstop, hres, ih]

/-- **C2 (amended).** If the probe for some team of the cycle raises while
the stop signal stays unset, the worker does not terminate: the aborted
cycle's trace ends with the probe immediately followed by the error log —
no registry report is made for the failing host — the worker pauses for
1 time unit (the long back-off) and then re-enters the loop with the
*full* team list, restarting the cycle from the first team, so the teams
already probed in the aborted cycle are probed again. -/
theorem worker_survives_probe_error (env : Env) (fmt : ℕ → String)
    (teams : List ℕ) (fuel : ℕ) (down : Finset Entry) (t : ℕ)
    (team : ℕ) (host : String)
    (hstop : ∀ i, env.stop i = false)
    (hraise : (runTeams env fmt teams down (t + 1)).2.2.2
        = TeamsResult.raised team host) :
    (runWorker env fmt teams (fuel + 1) down t).1
      = Action.stopFalse :: Action.cycleStart
          :: (runTeams env fmt teams down (t + 1)).1
        ++ Action.stopFalse :: Action.pauseLong
          :: (runWorker env fmt teams fuel
                (runTeams env fmt teams down (t + 1)).2.1
                ((runTeams env fmt teams down (t + 1)).2.2.1 + 1)).1
    ∧ (∃ tr0, (runTeams env fmt teams down (t + 1)).1
        = tr0 ++ [Action.stopFalse, Action.probeA team host, Action.logError team])
    ∧ (runWorker env fmt teams (fuel + 1) down t).2.2.2 = false := by
  refine ⟨?_, runTeams_raised_shape env fmt teams down (t + 1) team host hraise,
    runWorker_no_exit env fmt teams (fuel + 1) down t hstop⟩
  simp [runWorker, hstop, hraise]

/-- Witness for `worker_survives_probe_error`: teams `[1, 2]`, the probe
raising already for team 1 at clock 2. -/
theorem worker_survives_probe_error_witness :
    (runWorker
        ⟨fun _ => false, fun t _ => if t = 2 then ProbeOutcome.exn else ProbeOutcome.ok true⟩
        (fun n => "10." ++ toString n ++ ".1.5") [1, 2] 1 ∅ 0).2.2.2 = false := by
  exact (worker_survives_probe_error
    ⟨fun _ => false, fun t _ => if t = 2 then ProbeOutcome.exn else ProbeOutcome.ok true⟩
    (fun n => "10." ++ toString n ++ ".1.5") [1, 2] 0 ∅ 0 1 "10.1.1.5"
    (fun _ => rfl) (by decide)).2.2

/-- The claim as stated is false on the code: with teams `[1, 2]` and the
probe raising for team 2 (clock 4) in the first cycle, the worker's next
cycle re-probes team 1 — `probeA 1` appears twice in the two-cycle trace,
although the claim says the teams already probed are not re-probed — and
the registry after the aborted cycle does *not* contain the failing pair
`(2, "10.2.1.5")`, although the claim says the host is recorded as if the
probe had returned false. -/
theorem worker_probe_error_claim_false :
    ((runWorker
        ⟨fun _ => false, fun t _ => if t = 4 then ProbeOutcome.exn else ProbeOutcome.ok true⟩
        (fun n => "10." ++ toString n ++ ".1.5") [1, 2] 2 ∅ 0).1.count
      (Action.probeA 1 "10.1.1.5") = 2)
    ∧ Action.logError 2 ∈ (runWorker
        ⟨fun _ => false, fun t _ => if t = 4 then ProbeOutcome.exn else ProbeOutcome.ok true⟩
        (fun n => "10." ++ toString n ++ ".1.5") [1, 2] 2 ∅ 0).1
    ∧ (2, "10.2.1.5") ∉ (runTeams
        ⟨fun _ => false, fun t _ => if t = 4 then ProbeOutcome.exn else ProbeOutcome.ok true⟩
        (fun n => "10." ++ toString n ++ ".1.5") [1, 2] ∅ 1).2.1 := by
  refine ⟨?_, ?_, ?_⟩ <;> decide

/-! ## Supervisor polling loop (blender.py, lines 242-292)

`reset_check`'s monitoring section is a `while True` loop: each iteration
collects the finished futures, prints a warning (and the per-thread
exceptions) when some are finished, prints the interim down-host block,
and sleeps 30 seconds.  The only exit is a `KeyboardInterrupt`, whose
handler calls `_shutdown_threads` (set `stop_event`, print the final
status, await every future with a bounded join).  The environment records,
per iteration, whether some futures were observed finished and whether the
operator interrupt arrived during that iteration. -/

/-- Supervisor-visible actions. -/
inductive SupAction where
  /-- the "threads finished unexpectedly" warning (line 247) for `n`
  finished units, followed by retrieving their exceptions. -/
  | warnFinished (n : ℕ)
  /-- the iteration completed and the loop went around again (line 260). -/
  | pollSleep
  /-- `self.stop_event.set()` (line 275). -/
  | setStopSignal
  /-- the final status report (lines 278-282). -/
  | finalStatus
  /-- joining every worker and the reporter (lines 286-290). -/
  | awaitUnits
deriving DecidableEq

/-- What the supervisor observes, per polling iteration. -/
structure SupEnv where
  /-- a `KeyboardInterrupt` arrived during iteration `i`. -/
  interrupted : ℕ → Bool
  /-- the number of futures observed finished at iteration `i`. -/
  finishedCount : ℕ → ℕ

/-- The `_shutdown_threads` sequence (lines 270-292). -/
def shutdownTrace : List SupAction :=
  [SupAction.setStopSignal, SupAction.finalStatus, SupAction.awaitUnits]

/-- The `while True` polling loop of `reset_check` (lines 242-264) with
fuel bounding the iterations: returns the trace and whether the stop
signal was set.  Fuel running out models a loop that is still going. -/
def supervise (env : SupEnv) : ℕ → ℕ → List SupAction × Bool
  | 0, _ => ([], false)
  | fuel + 1, i =>
    let warn : List SupAction :=
      if 0 < env.finishedCount i then [SupAction.warnFinished (env.finishedCount i)] else []
    if env.interrupted i then
      (warn ++ shutdownTrace, true)
    else
      let r := supervise env fuel (i + 1)
      (warn ++ SupAction.pollSleep :: r.1, r.2)

/-- The claim as stated is false: in a run where one worker has terminated
(one finished future at every poll) and no operator interrupt arrives, the
supervisor polls twice, warns twice — and never sets the stop signal,
never emits a final status, never awaits the units: it merely logs the
death and keeps running. -/
theorem supervisor_ignores_dead_worker :
    (supervise ⟨fun _ => false, fun _ => 1⟩ 2 0).1
      = [SupAction.warnFinished 1, SupAction.pollSleep,
         SupAction.warnFinished 1, SupAction.pollSleep]
    ∧ SupAction.setStopSignal ∉ (supervise ⟨fun _ => false, fun _ => 1⟩ 2 0).1
    ∧ (supervise ⟨fun _ => false, fun _ => 1⟩ 2 0).2 = false := by
  refine ⟨?_, ?_, ?_⟩ <;> decide

/-- **C3 (amended).** While running, detecting that a worker or the
reporter terminated without the stop signal having been set only produces
the warning (and the retrieval of the dead unit's exception): the
supervisor then continues polling indefinitely, without setting the stop
signal, emitting a final status or awaiting the remaining units.  The
transition to the stopping sequence — set the stop signal, emit the final
status, await every unit, in that order — happens exactly on an operator
interrupt. -/
theorem supervisor_shutdown_only_on_interrupt (env : SupEnv) (fuel i : ℕ) :
    ((∀ j, env.interrupted j = false) →
      SupAction.setStopSignal ∉ (supervise env fuel i).1
      ∧ SupAction.finalStatus ∉ (supervise env fuel i).1
      ∧ SupAction.awaitUnits ∉ (supervise env fuel i).1
      ∧ (supervise env fuel i).2 = false
      ∧ (0 < env.finishedCount i → 0 < fuel →
          SupAction.warnFinished (env.finishedCount i) ∈ (supervise env fuel i).1
          ∧ SupAction.pollSleep ∈ (supervise env fuel i).1))
    ∧ (env.interrupted i = true →
        supervise env (fuel + 1) i
          = ((if 0 < env.finishedCount i
              then [SupAction.warnFinished (env.finishedCount i)] else [])
              ++ shutdownTrace, true)) := by
  constructor
  · intro hni
    induction fuel generalizing i with
    | zero =>
      refine ⟨by simp [supervise], by simp [supervise], by simp [supervise],
        by simp [supervise], ?_⟩
      intro _ hpos
      exact absurd hpos (by simp)
    | succ fuel ih =>
      obtain ⟨ih1, ih2, ih3, ih4, _⟩ := ih (i + 1)
      by_cases hfin : 0 < env.finishedCount i
      · refine ⟨?_, ?_, ?_, ?_, ?_⟩
        · simp [supervise, hni, hfin]
          exact ih1
        · simp [supervise, hni, hfin]
          exact ih2
        · simp [supervise, hni, hfin]
          exact ih3
        · simp [supervise, hni, ih4]
        · intro _ _
          constructor <;> simp [supervise, hni, hfin]
      · refine ⟨?_, ?_, ?_, ?_, ?_⟩
        · simp [supervise, hni, hfin]
          exact ih1
        · simp [supervise, hni, hfin]
          exact ih2
        · simp [supervise, hni, hfin]
          exact ih3
        · simp [supervise, hni, ih4]
        · intro hpos _
          exact absurd hpos hfin
  · intro hint
    simp [supervise, hint]

/-- Witness for `supervisor_shutdown_only_on_interrupt`: no interrupt ever
arrives, one dead worker observed at every poll. -/
theorem supervisor_shutdown_only_on_interrupt_witness :
    SupAction.setStopSignal ∉ (supervise ⟨fun _ => false, fun _ => 1⟩ 3 0).1
    ∧ SupAction.warnFinished 1 ∈ (supervise ⟨fun _ => false, fun _ => 1⟩ 3 0).1
    ∧ supervise ⟨fun _ => true, fun _ => 0⟩ (2 + 1) 0 = (shutdownTrace, true) := by
  have h1 := (supervisor_shutdown_only_on_interrupt ⟨fun _ => false, fun _ => 1⟩ 3 0).1
    (fun _ => rfl)
  have h2 := (supervisor_shutdown_only_on_interrupt ⟨fun _ => true, fun _ => 0⟩ 2 0).2 rfl
  exact ⟨h1.1, (h1.2.2.2.2 (by decide) (by decide)).1, by simpa using h2⟩

/-! ## Template un-substitution (blender.py, `unformat`, lines 103-127)

`unformat(formatted_string, format_string)` walks `formatted_string` and
`self.host_pattern` in lock-step by index: equal characters are copied;
at the first mismatch (the placeholder position) it reads
`x = formatted_string[i + len(format_string)]` (the first character after
the substituted value), copies pattern characters until one equals `x`
(the inner `while`), appends `formatted_string[i + len(format_string):]`
and stops.  The whole walk is wrapped in `try`/`except`; an `IndexError`
anywhere makes it return the characters accumulated so far.  Strings are
embedded as `List Char` because of the index arithmetic.  The `while`
loops are given fuel one larger than the relevant string length, which the
index bounds make unreachable. -/

/-- The inner `while z != x` scan (lines 119-122): copy `pattern[j]`,
`pattern[j+1]`, ... into the accumulator until a character equal to `x` is
found.  Returns `(accumulator, completedNormally)`; reading past the end
of the pattern is the `IndexError` case (`false`). -/
def innerScan (pattern : List Char) (x : Char) : ℕ → ℕ → List Char → List Char × Bool
  | 0, _, acc => (acc, false)
  | fuel + 1, j, acc =>
    match pattern[j]? with
    | none => (acc, false)
    | some z =>
      if z = x then (acc, true)
      else innerScan pattern x fuel (j + 1) (acc ++ [z])

/-- The outer `while i < len(formatted_string)` loop (lines 108-124).
Out-of-range reads return the accumulator (the `except` handler at lines
125-126 returns the partially built string). -/
def unformatLoop (pattern formatted fmtStr : List Char) : ℕ → ℕ → List Char → List Char
  | 0, _, acc => acc
  | fuel + 1, i, acc =>
    match formatted[i]? with
    | none => acc
    | some x =>
      match pattern[i]? with
      | none => acc
      | some y =>
        if x = y then
          unformatLoop pattern formatted fmtStr fuel (i + 1) (acc ++ [x])
        else
          match formatted[i + fmtStr.length]? with
          | none => acc
          | some x' =>
            let s := innerScan pattern x' (pattern.length + 1) i acc
            if s.2 then s.1 ++ formatted.drop (i + fmtStr.length)
            else s.1

/-- `unformat` (lines 103-127).  `pattern` is `self.host_pattern`,
`fmtStr` is `str(format_string)` — in the source the stringified reference
team — and `formatted` is the concrete host. -/
def unformat (pattern fmtStr formatted : List Char) : List Char :=
  unformatLoop pattern formatted fmtStr (formatted.length + 1) 0 []

/-- A host pattern with exactly one placeholder `{ph}`:
`pre ++ "{" ++ ph ++ "}" ++ suf`. -/
def templateOf (pre ph suf : List Char) : List Char :=
  pre ++ '{' :: (ph ++ '}' :: suf)

/-- `host.format(**{placeholder: team})` on such a pattern: the placeholder
is replaced by the decimal string of the team. -/
def formatTemplate (pre suf teamStr : List Char) : List Char :=
  pre ++ teamStr ++ suf

/-- The claim as stated is false: for the pattern `"a{team}"` (placeholder
at the end) and team 1, substitution yields `"a1"`, and un-substitution of
`"a1"` returns `"a"` — the read of `formatted_string[i + len("1")]` raises
`IndexError`, the handler returns the partial accumulator, and the
placeholder is lost instead of the pattern being recovered. -/
theorem unformat_not_left_inverse :
    unformat (templateOf "a".data "team".data []) "1".data
        (formatTemplate "a".data [] "1".data)
      = "a".data
    ∧ "a".data ≠ templateOf "a".data "team".data [] := by
  constructor <;> decide

lemma innerScan_spec (P : List Char) (x : Char) (tok : List Char) :
    ∀ (rest : List Char) (i : ℕ) (acc : List Char) (fuel : ℕ),
      P.drop i = tok ++ x :: rest → x ∉ tok → tok.length + 1 ≤ fuel →
      innerScan P x fuel i acc = (acc ++ tok, true) := by
  induction tok with
  | nil =>
    intro rest i acc fuel hdrop _ hfuel
    obtain ⟨f, rfl⟩ : ∃ f, fuel = f + 1 := ⟨fuel - 1, by omega⟩
    have hPi : P[i]? = some x := by
      have h0 := List.getElem?_drop P i 0
      rw [hdrop] at h0
      simpa using h0.symm
    simp [innerScan, hPi]
  | cons z0 tok' ih =>
    intro rest i acc fuel hdrop hnot hfuel
    obtain ⟨f, rfl⟩ : ∃ f, fuel = f + 1 := ⟨fuel - 1, by omega⟩
    have hPi : P[i]? = some z0 := by
      have h0 := List.getElem?_drop P i 0
      rw [hdrop] at h0
      simpa using h0.symm
    have hz0 : z0 ≠ x := fun heq => hnot (heq ▸ List.mem_cons_self z0 tok')
    have hdrop' : P.drop (i + 1) = tok' ++ x :: rest := by
      have h1 := List.drop_drop 1 i P
      rw [hdrop] at h1
      simpa [Nat.add_comm] using h1.symm
    have hnot' : x ∉ tok' := fun hmem => hnot (List.mem_cons_of_mem z0 hmem)
    have hfuel' : tok'.length + 1 ≤ f := by
      simp at hfuel
      omega
    have hrec := ih rest (i + 1) (acc ++ [z0]) f hdrop' hnot' hfuel'
    simp only [innerScan, hPi]
    rw [if_neg (fun heq => hz0 heq), hrec]
    simp

lemma unformatLoop_spec (P F ph teamStr suf' : List Char) (s0 c : Char)
    (ts' : List Char)
    (hteam : teamStr = c :: ts') (hc : c ≠ '{')
    (hs0 : s0 ∉ '{' :: (ph ++ ['}'])) (pre : List Char) :
    ∀ (i : ℕ) (acc : List Char) (fuel : ℕ),
      P.drop i = pre ++ '{' :: (ph ++ '}' :: s0 :: suf') →
      F.drop i = pre ++ teamStr ++ s0 :: suf' →
      pre.length + 1 ≤ fuel →
      unformatLoop P F teamStr fuel i acc = acc ++ P.drop i := by
  induction pre with
  | nil =>
    intro i acc fuel hdP hdF hfuel
    obtain ⟨f, rfl⟩ : ∃ f, fuel = f + 1 := ⟨fuel - 1, by omega⟩
    simp only [List.nil_append] at hdP hdF
    have hFi : F[i]? = some c := by
      have h0 := List.getElem?_drop F i 0
      rw [hdF, hteam] at h0
      simpa using h0.symm
    have hPi : P[i]? = some '{' := by
      have h0 := List.getElem?_drop P i 0
      rw [hdP] at h0
      simpa using h0.symm
    have hFafter : F[i + teamStr.length]? = some s0 := by
      have h0 := List.getElem?_drop F i teamStr.length
      rw [hdF] at h0
      rw [← h0, List.getElem?_append_right (le_refl teamStr.length)]
      simp
    have htok : P.drop i = ('{' :: (ph ++ ['}'])) ++ s0 :: suf' := by
      rw [hdP]
      simp
    have htoklen : ('{' :: (ph ++ ['}'])).length + 1 ≤ P.length + 1 := by
      have hlen := congrArg List.length htok
      rw [List.length_drop] at hlen
      rw [List.length_append] at hlen
      omega
    have hscan := innerScan_spec P s0 ('{' :: (ph ++ ['}'])) suf' i acc
      (P.length + 1) htok hs0 htoklen
    have hdrop2 : F.drop (i + teamStr.length) = s0 :: suf' := by
      have h1 := List.drop_drop teamStr.length i F
      rw [hdF] at h1
      rw [← h1, List.drop_left]
    simp only [unformatLoop, hFi, hPi]
    rw [if_neg hc, hFafter]
    simp only [hscan]
    rw [hdrop2, hdP]
    simp
  | cons p pre' ih =>
    intro i acc fuel hdP hdF hfuel
    obtain ⟨f, rfl⟩ : ∃ f, fuel = f + 1 := ⟨fuel - 1, by omega⟩
    have hFi : F[i]? = some p := by
      have h0 := List.getElem?_drop F i 0
      rw [hdF] at h0
      simpa using h0.symm
    have hPi : P[i]? = some p := by
      have h0 := List.getElem?_drop P i 0
      rw [hdP] at h0
      simpa using h0.symm
    have hdP' : P.drop (i + 1) = pre' ++ '{' :: (ph ++ '}' :: s0 :: suf') := by
      have h1 := List.drop_drop 1 i P
      rw [hdP] at h1
      simpa [Nat.add_comm] using h1.symm
    have hdF' : F.drop (i + 1) = pre' ++ teamStr ++ s0 :: suf' := by
      have h1 := List.drop_drop 1 i F
      rw [hdF] at h1
      simpa [Nat.add_comm] using h1.symm
    have hfuel' : pre'.length + 1 ≤ f := by
      simp at hfuel
      omega
    have hrec := ih (i + 1) (acc ++ [p]) f hdP' hdF' hfuel'
    simp only [unformatLoop, hFi, hPi, if_pos rfl]
    rw [hrec, hdP, hdP']
    simp

/-- **C9 (amended).** Un-substitution is a left inverse of placeholder
substitution for the patterns on which the index walk is sound: whenever
the placeholder is followed by at least one character and that character
occurs neither in the placeholder token `{ph}` nor as the team string's
leading `{` (team strings are decimal, so they never start with `{`),
`unformat` applied to the substituted host recovers the pattern.  When the
placeholder ends the pattern, or the character after it occurs inside
`{ph}`, recovery fails (see the counterexample). -/
theorem unformat_recovers_template (pre ph suf' teamStr : List Char)
    (s0 c : Char) (ts' : List Char)
    (hteam : teamStr = c :: ts') (hc : c ≠ '{')
    (hs0 : s0 ∉ '{' :: (ph ++ ['}'])) :
    unformat (templateOf pre ph (s0 :: suf')) teamStr
        (formatTemplate pre (s0 :: suf') teamStr)
      = templateOf pre ph (s0 :: suf') := by
  have hmain := unformatLoop_spec (templateOf pre ph (s0 :: suf'))
    (formatTemplate pre (s0 :: suf') teamStr) ph teamStr suf' s0 c ts'
    hteam hc hs0 pre 0 []
    ((formatTemplate pre (s0 :: suf') teamStr).length + 1)
    (by simp [templateOf]) (by simp [formatTemplate])
    (by simp only [formatTemplate, List.length_append]; omega)
  rw [unformat, hmain]
  simp

/-- Witness for `unformat_recovers_template`: the pattern `"10.{team}.1.5"`
with team 7. -/
theorem unformat_recovers_template_witness :
    unformat (templateOf "10.".data "team".data ".1.5".data) "7".data
        (formatTemplate "10.".data ".1.5".data "7".data)
      = templateOf "10.".data "team".data ".1.5".data := by
  exact unformat_recovers_template "10.".data "team".data "1.5".data "7".data
    '.' '7' [] (by decide) (by decide) (by decide)

end Peachfuzz
